import Mathlib

set_option maxHeartbeats 1600000
set_option maxRecDepth 100000

/-!
Verification of the content pipeline of `tableau_diff_bot.py`: text
normalization, diff generation, archive extraction with retries, section
rendering and packing of sections into size-bounded comment bodies.

Python strings are modelled as lists of characters (`Str`); `len` is the
character count, and a separate `utf8Len` gives the UTF-8 byte length.
Filesystem, archive and network effects are modelled by explicit
environments whose fallible operations return `Except PyErr`.
-/

namespace TDB

/-- Python `str` modelled as a list of characters; `List.length` is Python `len`. -/
abbrev Str := List Char

/-- UTF-8 encoded size of one character, by code-point range. -/
def utf8CharLen (c : Char) : Nat :=
  if c.val < 0x80 then 1
  else if c.val < 0x800 then 2
  else if c.val < 0x10000 then 3
  else 4

/-- UTF-8 byte length of a string. -/
def utf8Len (s : Str) : Nat := (s.map utf8CharLen).sum

/-- Whitespace characters removed by Python `str.strip()` (ASCII range). -/
def isPySpace (c : Char) : Bool :=
  c == ' ' || c == '\t' || c == '\n' || c == '\r' || c == '\x0b' || c == '\x0c'

/-- Python `str.strip()`. -/
def pyStrip (s : Str) : Str :=
  ((s.dropWhile isPySpace).reverse.dropWhile isPySpace).reverse

/-- Line boundaries recognised by Python `str.splitlines()`. -/
def isLineBreak (c : Char) : Bool :=
  c == '\n' || c == '\r' || c == '\x0b' || c == '\x0c' || c == '\x1c' ||
  c == '\x1d' || c == '\x1e' || c == '\x85' || c == '\u2028' || c == '\u2029'

/-- Python `str.splitlines()`: `"\r\n"` counts as a single boundary, a final
unterminated line is kept, and nothing follows a final terminator. -/
def pySplitlines : Str → List Str
  | [] => []
  | '\r' :: '\n' :: ts => [] :: pySplitlines ts
  | c :: ts =>
    if isLineBreak c then [] :: pySplitlines ts
    else
      match pySplitlines ts with
      | [] => [[c]]
      | l :: ls => (c :: l) :: ls

/-- Python `sep.join(xs)`. -/
def pyJoin (sep : Str) : List Str → Str
  | [] => []
  | [x] => x
  | x :: xs => x ++ sep ++ pyJoin sep xs

/-- Python `str.lower()` (ASCII case mapping). -/
def pyLower (s : Str) : Str := s.map Char.toLower

/-- Python `str.endswith(t)`. -/
def pyEndswith (s t : Str) : Bool := t.isSuffixOf s

/-- Python slice `s[:k]` for an `int` bound `k`: a negative bound counts from
the end of the string, clamped at 0. -/
def pySliceTo (s : Str) (k : Int) : Str :=
  if k < 0 then s.take (s.length - (-k).toNat) else s.take k.toNat

/-! ### `normalize_xml_for_diff` (lines 77-106)

The four drop patterns `.*created-at=.*` etc. are applied with `re.match`
and `re.IGNORECASE` to the stripped line; since `.` matches everything but
a newline and split lines contain no newline, each pattern holds exactly
when the lowered line contains the (lower-case) token. -/

/-- `pat` occurs as a contiguous substring of `s`. -/
def strContains (pat : Str) : Str → Bool
  | [] => pat.isEmpty
  | c :: cs => pat.isPrefixOf (c :: cs) || strContains pat cs

/-- One line matches one of `patterns_drop` (case-insensitive containment). -/
def lineIsDropped (ln : Str) : Bool :=
  let t := pyLower (pyStrip ln)
  strContains "created-at=".data t || strContains "creationtime=".data t ||
  strContains "last-modified".data t || strContains "modified-time".data t

/-- The literal replacement token inserted by `patterns_mask`. -/
def redactedTok : Str := "<redacted>".data

/-- Parse `[^"]+"`: a non-empty run of non-quote characters followed by a
closing quote. Returns the run and the remainder after the quote. -/
def parseAttrVal (u : Str) : Option (Str × Str) :=
  let run := u.takeWhile (fun c => c ≠ '"')
  if run.isEmpty then none
  else
    match u.drop run.length with
    | '"' :: after => some (run, after)
    | _ => none

/-- The lazy part `.*?B` of a mask pattern followed by `[^"]+"`: find the
earliest offset at which the literal `B` is followed by a parsable attribute
value. The gap consumed by `.*?` may not contain a newline (`.` does not
match one). Returns the gap and the value. -/
def lazyFindB (B : Str) : Str → Option (Str × Str)
  | [] =>
    match (if B.isPrefixOf ([] : Str) then parseAttrVal (([] : Str).drop B.length) else none) with
    | some (v, _) => some ([], v)
    | none => none
  | c :: ts =>
    match (if B.isPrefixOf (c :: ts) then parseAttrVal ((c :: ts).drop B.length) else none) with
    | some (v, _) => some ([], v)
    | none =>
      if c = '\n' then none
      else (lazyFindB B ts).map (fun gv => (c :: gv.1, gv.2))

/-- Scanner for a mask pattern `(A.*?B)[^"]+(")` with replacement
`\1<redacted>\2`: scan left to right, replace every non-overlapping match,
resume after the closing quote. The fuel argument only bounds the number of
scanning steps; every step consumes at least one character, so the string
length (supplied by `subAttr`) always suffices. -/
def subAttrGo (A B : Str) : Nat → Str → Str
  | 0, s => s
  | _ + 1, [] => []
  | fuel + 1, c :: cs =>
    if A.isPrefixOf (c :: cs) then
      match lazyFindB B ((c :: cs).drop A.length) with
      | some gv =>
        A ++ gv.1 ++ B ++ redactedTok ++ ['"'] ++
          subAttrGo A B fuel
            ((c :: cs).drop (A.length + gv.1.length + B.length + gv.2.length + 1))
      | none => c :: subAttrGo A B fuel cs
    else c :: subAttrGo A B fuel cs

/-- `re.sub` for a mask pattern `(A.*?B)[^"]+(")`. -/
def subAttr (A B : Str) (s : Str) : Str := subAttrGo A B s.length s

/-- Scanner for `(<uid>)[^<]+(</uid>)` with replacement `\1<redacted>\2`;
fuel as in `subAttrGo`. -/
def subUidGo : Nat → Str → Str
  | 0, s => s
  | _ + 1, [] => []
  | fuel + 1, c :: cs =>
    if "<uid>".data.isPrefixOf (c :: cs) then
      let u := (c :: cs).drop 5
      let run := u.takeWhile (fun x => x ≠ '<')
      if run.isEmpty then c :: subUidGo fuel cs
      else if "</uid>".data.isPrefixOf (u.drop run.length) then
        "<uid>".data ++ redactedTok ++ "</uid>".data ++
          subUidGo fuel ((c :: cs).drop (5 + run.length + 6))
      else c :: subUidGo fuel cs
    else c :: subUidGo fuel cs

/-- `re.sub` for `(<uid>)[^<]+(</uid>)`. -/
def subUid (s : Str) : Str := subUidGo s.length s

/-- Apply the four `patterns_mask` substitutions to one line, in source order. -/
def maskLine (ln : Str) : Str :=
  subUid
    (subAttr "<connection".data "id=\"".data
      (subAttr "<datasource".data "luid=\"".data
        (subAttr "<workbook".data "project-luid=\"".data ln)))

/-- `normalize_xml_for_diff` (lines 77-106): split into lines, drop volatile
lines, mask identifier values, and rejoin with `"\n"`. An empty (falsy)
input short-circuits to the empty string. -/
def normalize_xml_for_diff (xml_text : Str) : Str :=
  if xml_text.isEmpty then []
  else
    pyJoin ['\n']
      (((pySplitlines xml_text).filter (fun l => !lineIsDropped l)).map maskLine)

/-! ### `pack_sections_into_comments` (lines 406-425) -/

/-- The constant block prelude `header_tag + "\n\n" + intro + "\n"`. -/
def packHeader (header_tag intro : Str) : Str :=
  header_tag ++ "\n\n".data ++ intro ++ "\n".data

/-- The text appended after a truncated oversized section. -/
def truncNotice : Str := "\n\n".data ++ "(truncated — full content in gist)\n".data

/-- The search tip appended to the last comment. -/
def tipText (header_tag : Str) : Str :=
  "\n\n*Tip:* Search for the tag `".data ++ header_tag ++ "` to find these comments.".data

/-- `comments[-1] += tip` guarded by `if comments:`. -/
def addTip (header_tag : Str) (comments : List Str) : List Str :=
  match comments with
  | [] => []
  | _ => comments.dropLast ++ [comments.getLastD [] ++ tipText header_tag]

/-- The section loop of `pack_sections_into_comments`. -/
def packGo (header_tag intro : Str) (max_chars : Nat) :
    List Str → List Str → Str → List Str
  | [], comments, current =>
    if (pyStrip current).isEmpty then comments else comments ++ [current]
  | section_ :: rest, comments, current =>
    if max_chars < current.length + section_.length then
      if pyStrip current = pyStrip (header_tag ++ "\n\n".data ++ intro) ∧
          max_chars < section_.length then
        let truncated :=
          pySliceTo section_ ((max_chars : Int) - (current.length : Int) - 200)
        packGo header_tag intro max_chars rest
          (comments ++ [current ++ truncated ++ truncNotice])
          (packHeader header_tag intro)
      else
        packGo header_tag intro max_chars rest (comments ++ [current])
          (packHeader header_tag intro ++ section_)
    else
      packGo header_tag intro max_chars rest comments (current ++ section_)

/-- `pack_sections_into_comments` (lines 406-425): greedy accumulation of
sections into comment bodies, truncation of a section that alone exceeds
the limit while the current body is still pristine, and a search tip
appended to the last comment. Sizes are measured with Python `len`
(characters). -/
def pack_sections_into_comments (header_tag intro : Str) (file_sections : List Str)
    (max_chars : Nat) : List Str :=
  addTip header_tag
    (packGo header_tag intro max_chars file_sections [] (packHeader header_tag intro))

/-- Count of fence-marker lines (lines starting with three backticks) in a
body; a body whose fenced regions are all complete has an even count. -/
def fenceLineCount (b : Str) : Nat :=
  ((pySplitlines b).filter (fun l => "```".data.isPrefixOf l)).length

/-! ### Extraction (`_extract_twb_content`, lines 137-177, and
`extract_twb_content_with_retries`, lines 117-134)

The filesystem and archive effects are abstracted into an environment:
every fallible Python operation is a field returning `Except PyErr`, and the
`try`/`except` blocks of the source become explicit matches on that result. -/

/-- An arbitrary Python exception. -/
structure PyErr where
  msg : Str
deriving DecidableEq

/-- The view of an open `zipfile.ZipFile`: `namelist()`, `getinfo(n).file_size`
and `open(n).read()` decoded as UTF-8 (with `errors="replace"` fallback, which
itself cannot fail, so only the read can raise). -/
structure ZipView where
  namelist : List Str
  getinfoSize : Str → Nat
  readEntry : Str → Except PyErr Str

/-- Environment of one `_extract_twb_content` call: the declared name, the
result of reading the staged file as text (`errors="replace"`), whether
`zipfile.is_zipfile` holds, and the result of opening the archive. -/
structure ExtractEnv where
  original_name : Str
  fileText : Except PyErr Str
  isZipfile : Bool
  zipOpen : Except PyErr ZipView

/-- `twb_files = [f for f in files if f.lower().endswith(".twb")]`. -/
def twb_files_of (files : List Str) : List Str :=
  files.filter (fun f => pyEndswith (pyLower f) ".twb".data)

/-- `xml_candidates = [f for f in files if f.lower().endswith(".xml")]`. -/
def xml_candidates_of (files : List Str) : List Str :=
  files.filter (fun f => pyEndswith (pyLower f) ".xml".data)

/-- The candidate list after the fallback from `.twb` entries to `.xml`
entries (lines 156-159). -/
def twbCandidates (files : List Str) : List Str :=
  if (twb_files_of files).isEmpty then xml_candidates_of files else twb_files_of files

/-- The selection loop (lines 162-168): `best = None`, `best_size = -1`, keep
the entry whose `file_size` strictly exceeds the best so far. -/
def selectLargest (sizeOf : Str → Nat) (cands : List Str) : Option Str × Int :=
  cands.foldl
    (fun acc f => if (sizeOf f : Int) > acc.2 then (some f, (sizeOf f : Int)) else acc)
    (none, -1)

/-- The body of the `try` block of `_extract_twb_content` (lines 139-174);
an `Except.error` models an exception escaping to the outer handler. -/
def extractTwbBody (env : ExtractEnv) : Except PyErr Str :=
  if pyEndswith (pyLower env.original_name) ".twb".data then
    env.fileText
  else if pyEndswith (pyLower env.original_name) ".twbx".data then
    if !env.isZipfile then
      match env.fileText with
      | .ok text =>
        if "<?xml".data.isPrefixOf (pyStrip text) then .ok text else .ok []
      | .error _ => .ok []
    else
      match env.zipOpen with
      | .error e => .error e
      | .ok z =>
        let cands := twbCandidates z.namelist
        if cands.isEmpty then .ok []
        else
          match (selectLargest z.getinfoSize cands).1 with
          | some best => z.readEntry best
          | none => .ok []
  else .ok []

/-- `_extract_twb_content` (lines 137-177): the outer
`except Exception: return ""` converts any escaping error to the empty
(absent) result. -/
def _extract_twb_content (env : ExtractEnv) : Str :=
  match extractTwbBody env with
  | .ok s => s
  | .error _ => []

/-- One extraction attempt raises or returns an empty result. -/
def attemptFailsB (r : Except PyErr Str) : Bool :=
  match r with
  | .error _ => true
  | .ok c => c.isEmpty

/-- The retry loop of `extract_twb_content_with_retries` (lines 118-134).
`f` gives the outcome of the attempt with each index (the filesystem may
change between attempts, which is why retrying can help); the sleep has no
observable effect, but the delay state is threaded faithfully. The second
component of the result counts the extraction attempts made. -/
def retriesGo (f : Nat → Except PyErr Str) (maxRetries : Nat) (backoff : ℚ)
    (attempt : Nat) (delay : ℚ) : Str × Nat :=
  if _h : attempt ≤ maxRetries then
    match f attempt with
    | .ok content =>
      if content.isEmpty then
        let r := retriesGo f maxRetries backoff (attempt + 1)
          (if 0 < delay then delay * backoff else 0)
        (r.1, r.2 + 1)
      else (content, 1)
    | .error _ =>
      let r := retriesGo f maxRetries backoff (attempt + 1)
        (if 0 < delay then delay * backoff else 0)
      (r.1, r.2 + 1)
  else ([], 0)
termination_by maxRetries + 1 - attempt
decreasing_by
  all_goals omega

/-- `extract_twb_content_with_retries` (lines 117-134), instrumented with the
attempt count; `shouldDelay` is the result of `_should_delay_before_extract`. -/
def extract_twb_content_with_retries (f : Nat → Except PyErr Str)
    (maxRetries : Nat) (initialDelay backoff : ℚ) (shouldDelay : Bool) :
    Str × Nat :=
  retriesGo f maxRetries backoff 0 (if shouldDelay then initialDelay else 0)

/-- Sample archive view for Scenario C: two `.twb` entries of uncompressed
sizes 10 and 20 bytes. -/
def wzView : ZipView :=
  ⟨["a.twb".data, "b.twb".data],
    fun n => if n = "b.twb".data then 20 else 10,
    fun n => if n = "b.twb".data then Except.ok "<big/>".data
             else Except.ok "<small/>".data⟩

/-! ### Diff generation (`generate_minimal_diff`, lines 181-185)

The script calls `difflib.unified_diff`, which is modelled here following
the library's own structure: `find_longest_match`, `get_matching_blocks`,
`get_opcodes`, `get_grouped_opcodes` and the unified output format with
`fromfile="old.twb"`, `tofile="new.twb"`, `lineterm=""` and the default
context `n = 3`. -/

/-- A split document: the line lists handed to `unified_diff`. -/
abbrev Lines := List Str

/-- Length of the common run of `a` starting at `i` and `b` starting at `j`,
bounded by `ahi`/`bhi`. -/
def runLenFrom (a b : Lines) (ahi bhi : Nat) (i j : Nat) : Nat :=
  if h : i < ahi ∧ j < bhi ∧ (a.get? i).isSome ∧ a.get? i = b.get? j then
    1 + runLenFrom a b ahi bhi (i + 1) (j + 1)
  else 0
termination_by ahi - i
decreasing_by
  obtain ⟨h1, -⟩ := h
  omega

/-- `SequenceMatcher.find_longest_match` with `isjunk=None`: per the library
docstring, among the longest matching blocks of `a[alo:ahi]` and
`b[blo:bhi]` the one starting earliest in `a` and then earliest in `b`,
realised as a search with strict improvement on the block length over
ascending `(i, j)`. The autojunk popularity heuristic the library applies
to sequences of 200 or more lines is not modelled. -/
def find_longest_match (a b : Lines) (alo ahi blo bhi : Nat) :
    Nat × Nat × Nat :=
  (List.range' alo (ahi - alo)).foldl
    (fun best i =>
      (List.range' blo (bhi - blo)).foldl
        (fun best j =>
          let k := runLenFrom a b ahi bhi i j
          if best.2.2 < k then (i, j, k) else best)
        best)
    (alo, blo, 0)

/-- The recursive block collection of `get_matching_blocks` (the library's
queue plus final sort, realised directly in sorted order). The fuel only
bounds the recursion depth; every recursive range is strictly smaller, so
the top-level supply of `len(a) + len(b) + 1` always suffices. -/
def matching_blocks_go (a b : Lines) :
    Nat → Nat → Nat → Nat → Nat → List (Nat × Nat × Nat)
  | 0, _, _, _, _ => []
  | fuel + 1, alo, ahi, blo, bhi =>
    let m := find_longest_match a b alo ahi blo bhi
    if m.2.2 = 0 then []
    else
      matching_blocks_go a b fuel alo m.1 blo m.2.1 ++ [m] ++
        matching_blocks_go a b fuel (m.1 + m.2.2) ahi (m.2.1 + m.2.2) bhi

/-- The coalescing pass of `get_matching_blocks`: adjacent blocks merge, and
the `(la, lb, 0)` sentinel is appended. -/
def coalesceBlocks (la lb : Nat) (blocks : List (Nat × Nat × Nat)) :
    List (Nat × Nat × Nat) :=
  let fin := blocks.foldl
    (fun (st : (Nat × Nat × Nat) × List (Nat × Nat × Nat)) blk =>
      if st.1.1 + st.1.2.2 = blk.1 ∧ st.1.2.1 + st.1.2.2 = blk.2.1 then
        ((st.1.1, st.1.2.1, st.1.2.2 + blk.2.2), st.2)
      else if st.1.2.2 ≠ 0 then (blk, st.2 ++ [st.1])
      else (blk, st.2))
    ((0, 0, 0), [])
  (if fin.1.2.2 ≠ 0 then fin.2 ++ [fin.1] else fin.2) ++ [(la, lb, 0)]

/-- `SequenceMatcher.get_matching_blocks`. -/
def get_matching_blocks (a b : Lines) : List (Nat × Nat × Nat) :=
  coalesceBlocks a.length b.length
    (matching_blocks_go a b (a.length + b.length + 1) 0 a.length 0 b.length)

/-- Opcode tags of `SequenceMatcher.get_opcodes`. -/
inductive DTag where
  | replace
  | delete
  | insert
  | equal
deriving DecidableEq

/-- One opcode `(tag, i1, i2, j1, j2)`. -/
abbrev Opcode := DTag × Nat × Nat × Nat × Nat

/-- `SequenceMatcher.get_opcodes`. -/
def get_opcodes (a b : Lines) : List Opcode :=
  ((get_matching_blocks a b).foldl
    (fun (st : (Nat × Nat) × List Opcode) blk =>
      let ai := blk.1
      let bj := blk.2.1
      let size := blk.2.2
      let i := st.1.1
      let j := st.1.2
      let withTag :=
        if i < ai ∧ j < bj then st.2 ++ [(DTag.replace, i, ai, j, bj)]
        else if i < ai then st.2 ++ [(DTag.delete, i, ai, j, bj)]
        else if j < bj then st.2 ++ [(DTag.insert, i, ai, j, bj)]
        else st.2
      let withEq :=
        if size ≠ 0 then
          withTag ++ [(DTag.equal, ai, ai + size, bj, bj + size)]
        else withTag
      ((ai + size, bj + size), withEq))
    ((0, 0), [])).2

/-- `codes[0]` shrunk to at most `n` lines of leading context. -/
def modHead (n : Nat) : List Opcode → List Opcode
  | [] => []
  | (t, i1, i2, j1, j2) :: rest =>
    if t = DTag.equal then (t, max i1 (i2 - n), i2, max j1 (j2 - n), j2) :: rest
    else (t, i1, i2, j1, j2) :: rest

/-- `codes[-1]` shrunk to at most `n` lines of trailing context. -/
def modLast (n : Nat) (codes : List Opcode) : List Opcode :=
  match codes.getLast? with
  | none => []
  | some (t, i1, i2, j1, j2) =>
    codes.dropLast ++
      [if t = DTag.equal then (t, i1, min i2 (i1 + n), j1, min j2 (j1 + n))
       else (t, i1, i2, j1, j2)]

/-- `SequenceMatcher.get_grouped_opcodes`. -/
def get_grouped_opcodes (a b : Lines) (n : Nat) : List (List Opcode) :=
  let codes0 := get_opcodes a b
  let codes1 := if codes0.isEmpty then [(DTag.equal, 0, 1, 0, 1)] else codes0
  let codes := modLast n (modHead n codes1)
  let nn := n + n
  let fin := codes.foldl
    (fun (st : List Opcode × List (List Opcode)) c =>
      let t := c.1
      let i1 := c.2.1
      let i2 := c.2.2.1
      let j1 := c.2.2.2.1
      let j2 := c.2.2.2.2
      if t = DTag.equal ∧ nn < i2 - i1 then
        (([(t, max i1 (i2 - n), i2, max j1 (j2 - n), j2)] : List Opcode),
          st.2 ++ [st.1 ++ [(t, i1, min i2 (i1 + n), j1, min j2 (j1 + n))]])
      else (st.1 ++ [c], st.2))
    ([], [])
  if fin.1 ≠ [] ∧
      ¬(fin.1.length = 1 ∧ (fin.1.headD (DTag.equal, 0, 0, 0, 0)).1 = DTag.equal) then
    fin.2 ++ [fin.1]
  else fin.2

/-- Decimal digits of `n`, as produced by Python `str(int)`. -/
def natDigits (n : Nat) : Str :=
  if n < 10 then [Char.ofNat (48 + n)]
  else natDigits (n / 10) ++ [Char.ofNat (48 + n % 10)]
termination_by n
decreasing_by exact Nat.div_lt_self (by omega) (by omega)

/-- `difflib._format_range_unified`. -/
def _format_range_unified (start stop : Nat) : Str :=
  let beginning := start + 1
  let length := stop - start
  if length = 1 then natDigits beginning
  else
    natDigits (if length = 0 then beginning - 1 else beginning) ++ [','] ++
      natDigits length

/-- The body lines emitted for one opcode of a hunk. -/
def opLines (a b : Lines) (c : Opcode) : Lines :=
  let asl := (a.drop c.2.1).take (c.2.2.1 - c.2.1)
  let bsl := (b.drop c.2.2.2.1).take (c.2.2.2.2 - c.2.2.2.1)
  match c.1 with
  | DTag.equal => asl.map (fun l => ' ' :: l)
  | DTag.replace => asl.map (fun l => '-' :: l) ++ bsl.map (fun l => '+' :: l)
  | DTag.delete => asl.map (fun l => '-' :: l)
  | DTag.insert => bsl.map (fun l => '+' :: l)

/-- One hunk: the `@@`-header line followed by the body lines. -/
def hunkOf (a b : Lines) (g : List Opcode) : Lines :=
  let first := g.headD (DTag.equal, 0, 0, 0, 0)
  let last := g.getLastD (DTag.equal, 0, 0, 0, 0)
  ("@@ -".data ++ _format_range_unified first.2.1 last.2.2.1 ++
      " +".data ++ _format_range_unified first.2.2.2.1 last.2.2.2.2 ++
      " @@".data) ::
    (g.map (opLines a b)).flatten

/-- `difflib.unified_diff(a, b, fromfile, tofile, lineterm="")` with the
default context `n = 3`; the `started` flag of the generator amounts to
emitting the two `---`/`+++` header lines before the first group only. -/
def unified_diff (a b : Lines) (fromfile tofile : Str) : Lines :=
  match get_grouped_opcodes a b 3 with
  | [] => []
  | groups =>
    ("--- ".data ++ fromfile) :: ("+++ ".data ++ tofile) ::
      (groups.map (hunkOf a b)).flatten

/-- `generate_minimal_diff` (lines 181-185): normalize both sides, split into
lines, run the unified diff with placeholder file names, and keep only the
lines starting with `"+"`, `"-"` or `"@@"`. -/
def generate_minimal_diff (old_content new_content : Str) : Lines :=
  (unified_diff (pySplitlines (normalize_xml_for_diff old_content))
      (pySplitlines (normalize_xml_for_diff new_content))
      "old.twb".data "new.twb".data).filter
    (fun line => "+".data.isPrefixOf line || "-".data.isPrefixOf line ||
      "@@".data.isPrefixOf line)


/-! #### `build_file_section` (lines 346-403) -/

/-- Default value of the `MAX_LINES_PER_SECTION` environment constant (line 40). -/
def MAX_LINES_PER_SECTION : Nat := 1000

/-- Default value of `UPLOAD_TO_GIST_THRESHOLD_CHARS` (line 51). -/
def UPLOAD_TO_GIST_THRESHOLD_CHARS : Nat := 50000

/-- One character of Python `html.escape(s)` (quote=True). `html.escape`
performs whole-string replacements in the order `&`, `<`, `>`, `"`, `\x27`;
since the replacement texts introduce no character that a later replacement
rewrites and `&` is replaced first, this equals the character-wise map. -/
def html_escape_char (c : Char) : Str :=
  if c = '&' then "&amp;".data
  else if c = '<' then "&lt;".data
  else if c = '>' then "&gt;".data
  else if c = '"' then "&quot;".data
  else if c = '\'' then "&#x27;".data
  else [c]

/-- Python `html.escape(s)` with the default `quote=True`. -/
def html_escape (s : Str) : Str := s.flatMap html_escape_char

/-- Python `x or d` for an optional string field: `None` and `""` are falsy. -/
def pyOr (o : Option Str) (d : Str) : Str :=
  match o with
  | none => d
  | some s => if s = [] then d else s

/-- Python `x or []` for an optional list field. -/
def pyOrL (o : Option (List Str)) : List Str :=
  match o with
  | none => []
  | some l => l

/-- The chunks `lines[i : i + m]` for `i in range(0, len(lines), m)`
(lines 370 and 391). Structural recursion on a fuel equal to the list length,
which suffices because each step removes at least one element when `0 < m`;
the `m = 0` guard is unreachable in the source (`MAX_LINES_PER_SECTION > 0`). -/
def chunksOfGo (m : Nat) : Nat → List Str → List (List Str)
  | _, [] => []
  | 0, _ => []
  | fuel + 1, l => l.take m :: chunksOfGo m fuel (l.drop m)

def chunksOf (m : Nat) (l : List Str) : List (List Str) :=
  if m = 0 then [] else chunksOfGo m l.length l

/-- The `<details>` block for one content chunk (lines 373-376). -/
def detailsXml (part total : Nat) (chunk : List Str) : Str :=
  "<details>\n<summary>Part ".data ++ natDigits part ++ "/".data ++
    natDigits total ++ " — click to expand</summary>\n\n".data ++
    "```xml\n".data ++ pyJoin "\n".data chunk ++ "\n```\n\n</details>\n".data

/-- The `<details>` block for one diff chunk (lines 394-397). -/
def detailsDiff (part total : Nat) (chunk : List Str) : Str :=
  "<details>\n<summary>Diff Part ".data ++ natDigits part ++ "/".data ++
    natDigits total ++ " — click to expand</summary>\n\n".data ++
    "```diff\n".data ++ pyJoin "\n".data chunk ++ "\n```\n\n</details>\n".data

/-- The `summary` dict handed to `build_file_section` (the fields it reads). -/
structure FileSummary where
  file_path : Str
  status : Str
  preview : Option Str
  content : Option Str
  diff_lines : Option (List Str)

/-- `build_file_section` (lines 346-403). The one effect, `create_gist`, is
modelled by the environment parameter `gist`: the URL the gist service would
return, `none` when creation fails; `pr_number` only feeds the gist
description, which the rendered section does not contain. Python `len` counts
characters, `str.join` is `pyJoin`, and the loop over
`range(0, len(lines), MAX_LINES_PER_SECTION)` is `chunksOf` with the running
part number `i // MAX_LINES_PER_SECTION + 1` supplied by `List.enum`. -/
def build_file_section (gist : Option Str) (summary : FileSummary)
    (pr_number : Str) : Str :=
  let fp := html_escape summary.file_path
  let status := summary.status
  let title := "**".data ++ fp ++ "** — ".data ++ status
  let p0 : Str := "### ".data ++ title ++ "\n".data
  let preview := pyOr summary.preview "(no preview available)".data
  let p1 : Str := "**Preview:**\n\n".data ++ preview ++ "\n\n".data
  let body : List Str :=
    if status = "added".data ∨ status = "removed".data then
      let content := pyOr summary.content []
      if content ≠ [] ∧ UPLOAD_TO_GIST_THRESHOLD_CHARS < content.length then
        match gist with
        | some gist_url =>
          ["Full content is large — view it on a gist: ".data ++ gist_url ++
            "\n\n".data]
        | none =>
          let chunk := (pySplitlines content).take MAX_LINES_PER_SECTION
          ["```xml\n".data ++ pyJoin "\n".data chunk ++ "\n```\n\n".data]
      else
        let lines := pySplitlines (pyOr summary.content [])
        if lines = [] then ["_(No content to show)_\n\n".data]
        else
          let total := (lines.length - 1) / MAX_LINES_PER_SECTION + 1
          (chunksOf MAX_LINES_PER_SECTION lines).enum.map
            (fun p => detailsXml (p.1 + 1) total p.2)
    else if status = "modified".data then
      let diff_lines := pyOrL summary.diff_lines
      if diff_lines = [] then ["✅ No meaningful changes detected.\n\n".data]
      else
        let joined := pyJoin "\n".data diff_lines
        let pre : List Str :=
          if UPLOAD_TO_GIST_THRESHOLD_CHARS < joined.length then
            match gist with
            | some gist_url =>
              ["Diff is large — view full diff in a gist: ".data ++ gist_url ++
                "\n\n".data]
            | none => ["Diff is large; showing first part below.\n\n".data]
          else []
        let total := (diff_lines.length - 1) / MAX_LINES_PER_SECTION + 1
        pre ++ (chunksOf MAX_LINES_PER_SECTION diff_lines).enum.map
          (fun p => detailsDiff (p.1 + 1) total p.2)
    else ["_(Unknown status)_\n\n".data]
  pyJoin "\n".data ([p0, p1] ++ body ++ ["\n---\n".data])

/-! ### Theorems -/

theorem pyStrip_eq_nil_iff (s : Str) :
    pyStrip s = [] ↔ ∀ c ∈ s, isPySpace c = true := by
  unfold pyStrip
  rw [List.reverse_eq_nil_iff, List.dropWhile_eq_nil_iff]
  constructor
  · intro hall c hc
    rcases List.mem_append.1 (by rw [List.takeWhile_append_dropWhile (p := isPySpace)]; exact hc) with
      h1 | h2
    · exact List.mem_takeWhile_imp h1
    · exact hall c (List.mem_reverse.2 h2)
  · intro hall c hc
    exact hall c ((List.dropWhile_sublist _).subset (List.mem_reverse.1 hc))

theorem pyStrip_append_ne_nil {h : Str} (t : Str) (hh : pyStrip h ≠ []) :
    pyStrip (h ++ t) ≠ [] := by
  intro hcon
  exact hh ((pyStrip_eq_nil_iff h).2 fun c hc =>
    (pyStrip_eq_nil_iff (h ++ t)).1 hcon c (List.mem_append.2 (Or.inl hc)))

theorem pySplitlines_crlf (ts : Str) :
    pySplitlines ('\r' :: '\n' :: ts) = [] :: pySplitlines ts := rfl

theorem pySplitlines_cons_break {c : Char} {ts : Str} (hbr : isLineBreak c = true)
    (hne : ∀ ts', ¬(c = '\r' ∧ ts = '\n' :: ts')) :
    pySplitlines (c :: ts) = [] :: pySplitlines ts := by
  rw [pySplitlines.eq_def]
  split
  · rename_i heq; simp at heq
  · rename_i ts' heq
    rw [List.cons.injEq] at heq
    exact absurd heq (hne ts')
  · rename_i c' ts' hne' heq
    rw [List.cons.injEq] at heq
    obtain ⟨h1, h2⟩ := heq
    subst h1; subst h2
    rw [if_pos hbr]

theorem pySplitlines_cons_char {c : Char} {ts : Str} (hbr : isLineBreak c = false) :
    pySplitlines (c :: ts) =
      match pySplitlines ts with
      | [] => [[c]]
      | l :: ls => (c :: l) :: ls := by
  have hcr : c ≠ '\r' := by rintro rfl; simp [isLineBreak] at hbr
  rw [pySplitlines.eq_def]
  split
  · rename_i heq; simp at heq
  · rename_i ts' heq
    rw [List.cons.injEq] at heq
    exact absurd heq.1 hcr
  · rename_i c' ts' hne' heq
    rw [List.cons.injEq] at heq
    obtain ⟨h1, h2⟩ := heq
    subst h1; subst h2
    rw [if_neg (by simp [hbr])]

theorem pySplitlines_ne_nil {s : Str} (hne : s ≠ []) : pySplitlines s ≠ [] := by
  induction s using pySplitlines.induct with
  | case1 => exact absurd rfl hne
  | case2 ts ih => rw [pySplitlines_crlf]; exact List.cons_ne_nil _ _
  | case3 c ts hcrlf hbr ih =>
    rw [pySplitlines_cons_break hbr (fun ts' h => hcrlf ts' h.1 h.2)]
    exact List.cons_ne_nil _ _
  | case4 c ts hcrlf hbr hnil ih =>
    rw [pySplitlines_cons_char (Bool.not_eq_true _ ▸ hbr), hnil]
    exact List.cons_ne_nil _ _
  | case5 c ts hcrlf hbr l ls hcons ih =>
    rw [pySplitlines_cons_char (Bool.not_eq_true _ ▸ hbr), hcons]
    exact List.cons_ne_nil _ _

theorem pySplitlines_append (s t : Str) (hs : s.getLast? = some '\n') :
    pySplitlines (s ++ t) = pySplitlines s ++ pySplitlines t := by
  induction s using pySplitlines.induct with
  | case1 => simp at hs
  | case2 ts ih =>
    rcases ts with _ | ⟨c, cs⟩
    · rw [List.cons_append, List.cons_append, List.nil_append,
        pySplitlines_crlf, pySplitlines_crlf]
      rfl
    · have hlast : (c :: cs).getLast? = some '\n' := by
        rw [List.getLast?_cons_cons, List.getLast?_cons_cons] at hs
        exact hs
      rw [List.cons_append, List.cons_append, pySplitlines_crlf, pySplitlines_crlf,
        ih hlast, List.cons_append]
  | case3 c ts hcrlf hbr ih =>
    rcases ts with _ | ⟨c', cs⟩
    · have hc : c = '\n' := by simpa using hs
      subst hc
      have hnr : ('\n' : Char) ≠ '\r' := by decide
      rw [List.cons_append, List.nil_append,
        pySplitlines_cons_break hbr (fun ts' h => hnr h.1)]
      rfl
    · have hlast : (c' :: cs).getLast? = some '\n' := by
        rw [List.getLast?_cons_cons] at hs; exact hs
      have hne1 : ∀ ts', ¬(c = '\r' ∧ c' :: cs = '\n' :: ts') :=
        fun ts' h => hcrlf ts' h.1 h.2
      have hne2 : ∀ ts', ¬(c = '\r' ∧ (c' :: cs) ++ t = '\n' :: ts') := by
        intro ts' h
        obtain ⟨h1, h2⟩ := h
        rw [List.cons_append, List.cons.injEq] at h2
        exact hcrlf cs h1 (by rw [h2.1])
      rw [List.cons_append, pySplitlines_cons_break hbr hne2,
        pySplitlines_cons_break hbr hne1, ih hlast, List.cons_append]
  | case4 c ts hcrlf hbr hnil ih =>
    have hts : ts = [] := by
      by_contra hcon
      exact pySplitlines_ne_nil hcon hnil
    subst hts
    have hc : c = '\n' := by simpa using hs
    subst hc
    simp [isLineBreak] at hbr
  | case5 c ts hcrlf hbr l ls hcons ih =>
    have hts : ts ≠ [] := by
      rintro rfl
      rw [show pySplitlines [] = [] from rfl] at hcons
      exact List.cons_ne_nil _ _ hcons.symm
    rcases ts with _ | ⟨c', cs⟩
    · exact absurd rfl hts
    have hlast : (c' :: cs).getLast? = some '\n' := by
      rw [List.getLast?_cons_cons] at hs; exact hs
    have hbr' : isLineBreak c = false := Bool.not_eq_true _ ▸ hbr
    rw [List.cons_append, pySplitlines_cons_char hbr', pySplitlines_cons_char hbr',
      ih hlast, hcons, List.cons_append, List.cons_append]

theorem mem_of_mem_pySplitlines {c : Char} {l s : Str}
    (hl : l ∈ pySplitlines s) (hc : c ∈ l) : c ∈ s := by
  induction s using pySplitlines.induct generalizing l with
  | case1 => simp [show pySplitlines [] = [] from rfl] at hl
  | case2 ts ih =>
    rw [pySplitlines_crlf, List.mem_cons] at hl
    rcases hl with rfl | hl
    · simp at hc
    · exact List.mem_cons_of_mem _ (List.mem_cons_of_mem _ (ih hl hc))
  | case3 d ts hcrlf hbr ih =>
    rw [pySplitlines_cons_break hbr (fun ts' h => hcrlf ts' h.1 h.2), List.mem_cons] at hl
    rcases hl with rfl | hl
    · simp at hc
    · exact List.mem_cons_of_mem _ (ih hl hc)
  | case4 d ts hcrlf hbr hnil ih =>
    rw [pySplitlines_cons_char (Bool.not_eq_true _ ▸ hbr), hnil] at hl
    simp only [List.mem_singleton] at hl
    subst hl
    rcases List.mem_singleton.1 hc with rfl
    exact List.mem_cons_self _ _
  | case5 d ts hcrlf hbr l' ls hcons ih =>
    rw [pySplitlines_cons_char (Bool.not_eq_true _ ▸ hbr), hcons, List.mem_cons] at hl
    rcases hl with rfl | hl
    · rcases List.mem_cons.1 hc with rfl | hc'
      · exact List.mem_cons_self _ _
      · exact List.mem_cons_of_mem _ (ih (by rw [hcons]; exact List.mem_cons_self _ _) hc')
    · exact List.mem_cons_of_mem _ (ih (by rw [hcons]; exact List.mem_cons_of_mem _ hl) hc)

theorem pySplitlines_no_break {l s : Str} (hl : l ∈ pySplitlines s) :
    ∀ c ∈ l, isLineBreak c = false := by
  induction s using pySplitlines.induct generalizing l with
  | case1 => simp [show pySplitlines [] = [] from rfl] at hl
  | case2 ts ih =>
    rw [pySplitlines_crlf, List.mem_cons] at hl
    rcases hl with rfl | hl
    · simp
    · exact ih hl
  | case3 d ts hcrlf hbr ih =>
    rw [pySplitlines_cons_break hbr (fun ts' h => hcrlf ts' h.1 h.2), List.mem_cons] at hl
    rcases hl with rfl | hl
    · simp
    · exact ih hl
  | case4 d ts hcrlf hbr hnil ih =>
    rw [pySplitlines_cons_char (Bool.not_eq_true _ ▸ hbr), hnil] at hl
    simp only [List.mem_singleton] at hl
    subst hl
    intro c hc
    rcases List.mem_singleton.1 hc with rfl
    simpa using hbr
  | case5 d ts hcrlf hbr l' ls hcons ih =>
    rw [pySplitlines_cons_char (Bool.not_eq_true _ ▸ hbr), hcons, List.mem_cons] at hl
    rcases hl with rfl | hl
    · intro c hc
      rcases List.mem_cons.1 hc with rfl | hc'
      · simpa using hbr
      · exact ih (by rw [hcons]; exact List.mem_cons_self _ _) c hc'
    · exact ih (by rw [hcons]; exact List.mem_cons_of_mem _ hl)

theorem pySplitlines_of_no_break {s : Str} (hne : s ≠ [])
    (hnb : ∀ c ∈ s, isLineBreak c = false) : pySplitlines s = [s] := by
  induction s with
  | nil => exact absurd rfl hne
  | cons c cs ih =>
    have hc : isLineBreak c = false := hnb c (List.mem_cons_self _ _)
    rw [pySplitlines_cons_char hc]
    rcases cs with _ | ⟨c', cs'⟩
    · rfl
    · rw [ih (by simp) (fun x hx => hnb x (List.mem_cons_of_mem _ hx))]

theorem fenceLineCount_append {s : Str} (t : Str) (hs : s.getLast? = some '\n') :
    fenceLineCount (s ++ t) = fenceLineCount s + fenceLineCount t := by
  unfold fenceLineCount
  rw [pySplitlines_append s t hs, List.filter_append, List.length_append]

theorem fenceLineCount_zero {s : Str} (hbt : '`' ∉ s) : fenceLineCount s = 0 := by
  unfold fenceLineCount
  rw [List.length_eq_zero, List.filter_eq_nil_iff]
  intro l hl hpre
  obtain ⟨t, ht⟩ := List.isPrefixOf_iff_prefix.1 hpre
  have hmem : '`' ∈ l := by
    rw [← ht]
    exact List.mem_append_left _ (by decide)
  exact hbt (mem_of_mem_pySplitlines hl hmem)

theorem fenceLineCount_flatten_even {gs : List Str}
    (h : ∀ s ∈ gs, s.getLast? = some '\n' ∧ fenceLineCount s % 2 = 0) :
    fenceLineCount gs.flatten % 2 = 0 ∧
      (gs.flatten = [] ∨ gs.flatten.getLast? = some '\n') := by
  induction gs with
  | nil => exact ⟨by rfl, Or.inl rfl⟩
  | cons s gs ih =>
    have hs := h s (List.mem_cons_self _ _)
    have ih' := ih (fun x hx => h x (List.mem_cons_of_mem _ hx))
    rw [List.flatten_cons]
    constructor
    · rw [fenceLineCount_append _ hs.1]
      omega
    · rcases ih'.2 with hnil | hlast
      · rw [hnil, List.append_nil]
        exact Or.inr hs.1
      · right
        rw [List.getLast?_append, hlast]
        rfl

theorem mem_getLastD {α : Type} {l : List α} (d : α) (h : l ≠ []) :
    l.getLastD d ∈ l := by
  rw [List.getLastD_eq_getLast?]
  cases hl : l.getLast? with
  | none => exact absurd (List.getLast?_eq_none_iff.1 hl) h
  | some a => exact List.mem_of_mem_getLast? hl

theorem mem_addTip {h b : Str} {comments : List Str} (hb : b ∈ addTip h comments) :
    b ∈ comments ∨ ∃ last ∈ comments, b = last ++ tipText h := by
  cases comments with
  | nil => simp [addTip] at hb
  | cons c cs =>
    simp only [addTip, List.mem_append] at hb
    rcases hb with h1 | h2
    · exact Or.inl ((List.dropLast_sublist _).subset h1)
    · right
      rcases List.mem_singleton.1 h2 with rfl
      exact ⟨(c :: cs).getLastD [], mem_getLastD _ (by simp), rfl⟩

theorem packGo_nil {h i current : Str} {m : Nat} {comments : List Str}
    (hcur : pyStrip current ≠ []) :
    packGo h i m [] comments current = comments ++ [current] := by
  simp only [packGo]
  rw [if_neg (by simpa [List.isEmpty_iff] using hcur)]

theorem packGo_cons_acc {h i current sec : Str} {m : Nat}
    {rest comments : List Str}
    (hov : ¬ m < current.length + sec.length) :
    packGo h i m (sec :: rest) comments current =
      packGo h i m rest comments (current ++ sec) := by
  simp only [packGo]
  rw [if_neg hov]

theorem packGo_cons_over {h i current sec : Str} {m : Nat}
    {rest comments : List Str}
    (hov : m < current.length + sec.length)
    (hnt : ¬(pyStrip current = pyStrip (h ++ "\n\n".data ++ i) ∧ m < sec.length)) :
    packGo h i m (sec :: rest) comments current =
      packGo h i m rest (comments ++ [current]) (packHeader h i ++ sec) := by
  simp only [packGo]
  rw [if_pos hov, if_neg hnt]

theorem pyStrip_packHeader_ne_nil {h : Str} (i t : Str) (hh : pyStrip h ≠ []) :
    pyStrip (packHeader h i ++ t) ≠ [] := by
  have harr : packHeader h i ++ t = h ++ ("\n\n".data ++ i ++ "\n".data ++ t) := by
    unfold packHeader
    simp [List.append_assoc]
  rw [harr]
  exact pyStrip_append_ne_nil _ hh

theorem packGo_structure (h i : Str) (m : Nat) (hh : pyStrip h ≠ [])
    (sections : List Str)
    (hfit : ∀ s ∈ sections, (packHeader h i).length + s.length ≤ m) :
    ∀ (comments : List Str) (acc : List Str),
      ∃ first rest,
        sections = first ++ List.flatten rest ∧
        packGo h i m sections comments (packHeader h i ++ acc.flatten) =
          comments ++ (packHeader h i ++ (acc ++ first).flatten) ::
            rest.map (fun g => packHeader h i ++ g.flatten) := by
  induction sections with
  | nil =>
    intro comments acc
    refine ⟨[], [], by simp, ?_⟩
    rw [packGo_nil (pyStrip_packHeader_ne_nil i _ hh)]
    simp
  | cons sec rest ih =>
    intro comments acc
    have hfit' : ∀ s ∈ rest, (packHeader h i).length + s.length ≤ m :=
      fun s hs => hfit s (List.mem_cons_of_mem _ hs)
    have hfsec : (packHeader h i).length + sec.length ≤ m :=
      hfit sec (List.mem_cons_self _ _)
    by_cases hov : m < (packHeader h i ++ acc.flatten).length + sec.length
    · have hsle : ¬(m < sec.length) := by omega
      rw [packGo_cons_over hov (fun hcon => hsle hcon.2)]
      obtain ⟨first', rest', hsec', heq'⟩ :=
        ih hfit' (comments ++ [packHeader h i ++ acc.flatten]) [sec]
      refine ⟨[], (sec :: first') :: rest', by simp [hsec'], ?_⟩
      have hcur : packHeader h i ++ sec = packHeader h i ++ List.flatten [sec] := by simp
      rw [hcur, heq']
      simp [List.append_assoc]
    · rw [packGo_cons_acc hov]
      obtain ⟨first', rest', hsec', heq'⟩ := ih hfit' comments (acc ++ [sec])
      refine ⟨sec :: first', rest', by simp [hsec'], ?_⟩
      have hcur : (packHeader h i ++ acc.flatten) ++ sec =
          packHeader h i ++ (acc ++ [sec]).flatten := by
        simp [List.append_assoc]
      rw [hcur, heq']
      simp [List.append_assoc]

theorem pack_decomposition (h i : Str) (sections : List Str) (m : Nat)
    (hh : pyStrip h ≠ [])
    (hfit : ∀ s ∈ sections, (packHeader h i).length + s.length ≤ m) :
    ∃ gs : List (List Str), gs.flatten = sections ∧
      pack_sections_into_comments h i sections m =
        addTip h (gs.map (fun g => packHeader h i ++ g.flatten)) := by
  obtain ⟨first, rest, hsec, heq⟩ := packGo_structure h i m hh sections hfit [] []
  refine ⟨first :: rest, by simp [← hsec], ?_⟩
  unfold pack_sections_into_comments
  have heq2 : packGo h i m sections [] (packHeader h i) =
      (packHeader h i ++ first.flatten) ::
        rest.map (fun g => packHeader h i ++ g.flatten) := by
    have : packHeader h i = packHeader h i ++ (List.flatten ([] : List Str)) := by simp
    rw [this, heq]
    simp
  rw [heq2]
  simp

/-- C2 (amended): provided the header tag is not pure whitespace and every
section fits in a single block (`len(prefix) + len(section) <= max_chars`,
which rules out the truncation branch), `pack_sections_into_comments`
partitions the section list, in order, into consecutive groups: every
returned block is the constant prefix followed by the concatenation of one
group (the search tip being appended to the last block), so concatenating
the blocks' section-derived content reconstructs all sections with nothing
dropped. -/
theorem c2_pack_preserves_content (h i : Str) (sections : List Str) (m : Nat)
    (hh : pyStrip h ≠ [])
    (hfit : ∀ s ∈ sections, (packHeader h i).length + s.length ≤ m) :
    ∃ gs : List (List Str), gs.flatten = sections ∧
      pack_sections_into_comments h i sections m =
        addTip h (gs.map (fun g => packHeader h i ++ g.flatten)) :=
  pack_decomposition h i sections m hh hfit

/-- Witness for the amended C2 at a concrete input. -/
theorem c2_pack_preserves_content_witness :
    (pyStrip "#t".data ≠ [] ∧
      ∀ s ∈ ["ab\n".data], (packHeader "#t".data "".data).length + s.length ≤ 50) ∧
    (∃ gs : List (List Str), gs.flatten = ["ab\n".data] ∧
      pack_sections_into_comments "#t".data "".data ["ab\n".data] 50 =
        addTip "#t".data (gs.map (fun g => packHeader "#t".data "".data ++ g.flatten))) :=
  ⟨⟨by decide, by decide⟩,
    c2_pack_preserves_content "#t".data "".data ["ab\n".data] 50 (by decide) (by decide)⟩

/-- C3 (amended): every block contains an even number of fence-marker lines
(all fenced regions complete) provided the header tag is a non-whitespace,
single-line, backtick-free string, the intro is backtick-free, and every
section fits in one block, ends with a newline and itself has an even number
of fence-marker lines. The packer never re-fences: outside the truncation
branch it only concatenates whole sections after the prefix. -/
theorem c3_pack_keeps_fences (h i : Str) (sections : List Str) (m : Nat)
    (hh : pyStrip h ≠ [])
    (hhb : ∀ c ∈ h, isLineBreak c = false)
    (hbt : '`' ∉ h) (hbi : '`' ∉ i)
    (hsec : ∀ s ∈ sections, (packHeader h i).length + s.length ≤ m ∧
        s.getLast? = some '\n' ∧ fenceLineCount s % 2 = 0) :
    ∀ b ∈ pack_sections_into_comments h i sections m, fenceLineCount b % 2 = 0 := by
  intro b hb
  obtain ⟨gs, hgs, heq⟩ :=
    pack_decomposition h i sections m hh (fun s hs => (hsec s hs).1)
  rw [heq] at hb
  have hpfxnl : (packHeader h i).getLast? = some '\n' := by
    unfold packHeader
    rw [List.getLast?_append]
    rfl
  have hpfxbt : '`' ∉ packHeader h i := by
    unfold packHeader
    intro hc
    rcases List.mem_append.1 hc with hc1 | hc2
    · rcases List.mem_append.1 hc1 with hc3 | hc4
      · rcases List.mem_append.1 hc3 with hc5 | hc6
        · exact hbt hc5
        · exact absurd hc6 (by decide)
      · exact hbi hc4
    · exact absurd hc2 (by decide)
  have hblock : ∀ g ∈ gs, fenceLineCount (packHeader h i ++ g.flatten) % 2 = 0 ∧
      (packHeader h i ++ g.flatten).getLast? = some '\n' := by
    intro g hg
    have hgsub : ∀ s ∈ g, s.getLast? = some '\n' ∧ fenceLineCount s % 2 = 0 := by
      intro s hs
      have hmem : s ∈ sections := by
        rw [← hgs]
        exact List.mem_flatten.2 ⟨g, hg, hs⟩
      exact ⟨(hsec s hmem).2.1, (hsec s hmem).2.2⟩
    obtain ⟨hev, hlast⟩ := fenceLineCount_flatten_even hgsub
    refine ⟨?_, ?_⟩
    · rw [fenceLineCount_append _ hpfxnl, fenceLineCount_zero hpfxbt]
      omega
    · rcases hlast with hnil | hl
      · rw [hnil, List.append_nil]
        exact hpfxnl
      · rw [List.getLast?_append, hl]
        rfl
  have hXnb : ∀ c ∈ ("*Tip:* Search for the tag `".data ++ h) ++
      "` to find these comments.".data, isLineBreak c = false := by
    intro c hc
    rcases List.mem_append.1 hc with hc1 | hc2
    · rcases List.mem_append.1 hc1 with hc3 | hc4
      · exact (by decide :
          ∀ c ∈ "*Tip:* Search for the tag `".data, isLineBreak c = false) c hc3
      · exact hhb c hc4
    · exact (by decide :
        ∀ c ∈ "` to find these comments.".data, isLineBreak c = false) c hc2
  have hXne : (("*Tip:* Search for the tag `".data ++ h) ++
      "` to find these comments.".data) ≠ [] := List.cons_ne_nil _ _
  have htip : fenceLineCount (tipText h) = 0 := by
    have h1 : tipText h = '\n' :: '\n' ::
        (("*Tip:* Search for the tag `".data ++ h) ++
          "` to find these comments.".data) := rfl
    rw [h1]
    unfold fenceLineCount
    rw [pySplitlines_cons_break (by decide) (fun ts' hcon => absurd hcon.1 (by decide)),
      pySplitlines_cons_break (by decide) (fun ts' hcon => absurd hcon.1 (by decide)),
      pySplitlines_of_no_break hXne hXnb]
    have hp0 : ("```".data.isPrefixOf ([] : Str)) = false := rfl
    have hpX : ("```".data.isPrefixOf (("*Tip:* Search for the tag `".data ++ h) ++
        "` to find these comments.".data)) = false := rfl
    simp only [List.filter, hp0, hpX]
    rfl
  rcases mem_addTip hb with hmem | ⟨last, hlastmem, rfl⟩
  · obtain ⟨g, hg, rfl⟩ := List.mem_map.1 hmem
    exact (hblock g hg).1
  · obtain ⟨g, hg, rfl⟩ := List.mem_map.1 hlastmem
    rw [fenceLineCount_append _ (hblock g hg).2, htip]
    have := (hblock g hg).1
    omega

/-- Witness for the amended C3 at a concrete input. -/
theorem c3_pack_keeps_fences_witness :
    (pyStrip "#t".data ≠ [] ∧ (∀ c ∈ "#t".data, isLineBreak c = false) ∧
      '`' ∉ "#t".data ∧ '`' ∉ ("".data : Str) ∧
      (∀ s ∈ ["x\n".data], (packHeader "#t".data "".data).length + s.length ≤ 50 ∧
        s.getLast? = some '\n' ∧ fenceLineCount s % 2 = 0)) ∧
    (∀ b ∈ pack_sections_into_comments "#t".data "".data ["x\n".data] 50,
      fenceLineCount b % 2 = 0) :=
  ⟨⟨by decide, by decide, by decide, by decide, by decide⟩,
    c3_pack_keeps_fences "#t".data "".data ["x\n".data] 50
      (by decide) (by decide) (by decide) (by decide) (by decide)⟩

/-- C1: the claim that every block returned by `pack_sections_into_comments`
has UTF-8 byte length at most `maxBytes` fails on the code: with
`header_tag = "T"`, `intro = ""`, sections `["abc", "dddddddddddd"]` and
`max_chars = 10`, a section longer than the limit that arrives while the
current block already holds content is placed unsplit into a fresh block,
and the search tip is appended without re-checking the limit, producing a
71-byte block. -/
theorem c1_pack_exceeds_limit :
    ∃ b ∈ pack_sections_into_comments "T".data [] ["abc".data, "dddddddddddd".data] 10,
      10 < utf8Len b := by
  decide

/-- C2 counterexample: content is dropped. Packing a single section of
sixty `'z'` characters with `max_chars = 50` triggers the truncation branch
with a negative slice bound: no `'z'` at all survives into any output block,
so no reading of "section-derived content" can reconstruct the input. -/
theorem c2_pack_drops_content :
    (((pack_sections_into_comments "T".data [] [List.replicate 60 'z'] 50).map
        (fun b => b.count 'z')).sum = 0) ∧
      (List.replicate 60 'z').count 'z' = 60 := by
  decide

/-- C3 counterexample: a fenced region is torn apart. A single section
consisting of one fenced diff block, 223 characters long, packed with
`max_chars = 215`, is truncated 11 characters in: the emitted block contains
the opening ```` ```diff ```` line but no closing fence (an odd number of
fence lines). -/
theorem c3_pack_orphans_fence :
    ∃ b ∈ pack_sections_into_comments "T".data []
        ["```diff\n".data ++ List.replicate 210 'x' ++ "\n```\n".data] 215,
      fenceLineCount b % 2 = 1 := by
  decide

/-- C4: `normalize_xml_for_diff` is not idempotent. `"\n\n"` splits into two
empty lines and normalizes to `"\n"`, but `"\n"` splits into a single empty
line and normalizes to `""`: re-normalizing loses the trailing empty line. -/
theorem c4_normalize_not_idempotent :
    normalize_xml_for_diff (normalize_xml_for_diff "\n\n".data) ≠
      normalize_xml_for_diff "\n\n".data := by
  decide

theorem isEmpty_false_of_ne_nil {α : Type} {c : List α} (h : c ≠ []) :
    c.isEmpty = false := by
  cases c
  · exact absurd rfl h
  · rfl

theorem retriesGo_count (f : Nat → Except PyErr Str) (mR : Nat) (b : ℚ) :
    ∀ (n a : Nat) (d : ℚ), mR + 1 - a ≤ n → (retriesGo f mR b a d).2 ≤ n := by
  intro n
  induction n with
  | zero =>
    intro a d hle
    rw [retriesGo.eq_def, dif_neg (by omega)]
  | succ n ih =>
    intro a d hle
    rw [retriesGo.eq_def]
    by_cases ha : a ≤ mR
    · rw [dif_pos ha]
      cases hf : f a with
      | ok content =>
        dsimp only
        by_cases hc : content.isEmpty
        · rw [if_pos hc]
          have := ih (a + 1) (if 0 < d then d * b else 0) (by omega)
          dsimp only
          omega
        · rw [if_neg hc]
          exact Nat.succ_le_succ (Nat.zero_le n)
      | error e =>
        dsimp only
        have := ih (a + 1) (if 0 < d then d * b else 0) (by omega)
        omega
    · rw [dif_neg ha]
      exact Nat.zero_le _

theorem retriesGo_success (f : Nat → Except PyErr Str) (mR : Nat) (b : ℚ)
    (k : Nat) (c : Str) (hk : k ≤ mR) (hok : f k = Except.ok c) (hne : c ≠ []) :
    ∀ (n a : Nat) (d : ℚ), k - a ≤ n → a ≤ k →
      (∀ i, a ≤ i → i < k → attemptFailsB (f i) = true) →
      retriesGo f mR b a d = (c, k + 1 - a) := by
  intro n
  induction n with
  | zero =>
    intro a d hna hak hfail
    have hk' : a = k := by omega
    subst hk'
    have harith : a + 1 - a = 1 := by omega
    rw [retriesGo.eq_def, dif_pos (by omega), hok, harith]
    simp [isEmpty_false_of_ne_nil hne]
  | succ n ih =>
    intro a d hna hak hfail
    by_cases heq : a = k
    · subst heq
      have harith : a + 1 - a = 1 := by omega
      rw [retriesGo.eq_def, dif_pos (by omega), hok, harith]
      simp [isEmpty_false_of_ne_nil hne]
    · have halt : a < k := by omega
      have hfa := hfail a le_rfl halt
      rw [retriesGo.eq_def, dif_pos (by omega)]
      cases hf : f a with
      | ok content =>
        dsimp only
        have hcontent : content.isEmpty = true := by
          rw [hf] at hfa
          exact hfa
        rw [if_pos hcontent]
        rw [ih (a + 1) (if 0 < d then d * b else 0) (by omega) (by omega)
          (fun i hi1 hi2 => hfail i (by omega) hi2)]
        have harith : k + 1 - (a + 1) + 1 = k + 1 - a := by omega
        rw [harith]
      | error e =>
        dsimp only
        rw [ih (a + 1) (if 0 < d then d * b else 0) (by omega) (by omega)
          (fun i hi1 hi2 => hfail i (by omega) hi2)]
        have harith : k + 1 - (a + 1) + 1 = k + 1 - a := by omega
        rw [harith]

theorem retriesGo_allfail (f : Nat → Except PyErr Str) (mR : Nat) (b : ℚ) :
    ∀ (n a : Nat) (d : ℚ), mR + 1 - a ≤ n →
      (∀ i, a ≤ i → i ≤ mR → attemptFailsB (f i) = true) →
      retriesGo f mR b a d = ([], mR + 1 - a) := by
  intro n
  induction n with
  | zero =>
    intro a d hle hfail
    rw [retriesGo.eq_def, dif_neg (by omega)]
    have harith : mR + 1 - a = 0 := by omega
    rw [harith]
  | succ n ih =>
    intro a d hle hfail
    by_cases ha : a ≤ mR
    · have hfa := hfail a le_rfl ha
      rw [retriesGo.eq_def, dif_pos ha]
      cases hf : f a with
      | ok content =>
        dsimp only
        have hcontent : content.isEmpty = true := by
          rw [hf] at hfa
          exact hfa
        rw [if_pos hcontent]
        rw [ih (a + 1) (if 0 < d then d * b else 0) (by omega)
          (fun i hi1 hi2 => hfail i (by omega) hi2)]
        have harith : mR + 1 - (a + 1) + 1 = mR + 1 - a := by omega
        rw [harith]
      | error e =>
        dsimp only
        rw [ih (a + 1) (if 0 < d then d * b else 0) (by omega)
          (fun i hi1 hi2 => hfail i (by omega) hi2)]
        have harith : mR + 1 - (a + 1) + 1 = mR + 1 - a := by omega
        rw [harith]
    · rw [retriesGo.eq_def, dif_neg ha]
      have harith : mR + 1 - a = 0 := by omega
      rw [harith]

/-- C6: the retry scheduler makes at most `maxRetries + 1` attempts; a first
non-empty result at attempt `k` (0-based) is returned at once after exactly
`k + 1` attempts; if every attempt raises or returns empty, the absent
result is returned after all `maxRetries + 1` attempts. -/
theorem c6_retry_schedule (f : Nat → Except PyErr Str) (maxRetries : Nat)
    (initialDelay backoff : ℚ) (shouldDelay : Bool) :
    (extract_twb_content_with_retries f maxRetries initialDelay backoff
        shouldDelay).2 ≤ maxRetries + 1 ∧
    (∀ k c, k ≤ maxRetries → (∀ i, i < k → attemptFailsB (f i) = true) →
      f k = Except.ok c → c ≠ [] →
      extract_twb_content_with_retries f maxRetries initialDelay backoff
        shouldDelay = (c, k + 1)) ∧
    ((∀ i, i ≤ maxRetries → attemptFailsB (f i) = true) →
      extract_twb_content_with_retries f maxRetries initialDelay backoff
        shouldDelay = ([], maxRetries + 1)) := by
  refine ⟨?_, ?_, ?_⟩
  · exact retriesGo_count f maxRetries backoff (maxRetries + 1) 0 _ (by omega)
  · intro k c hk hfail hok hne
    have h := retriesGo_success f maxRetries backoff k c hk hok hne k 0
      (if shouldDelay then initialDelay else (0 : ℚ)) (by omega) (by omega)
      (fun i _ hi2 => hfail i hi2)
    simpa [extract_twb_content_with_retries] using h
  · intro hfail
    have h := retriesGo_allfail f maxRetries backoff (maxRetries + 1) 0
      (if shouldDelay then initialDelay else (0 : ℚ)) (by omega)
      (fun i _ hi2 => hfail i hi2)
    simpa [extract_twb_content_with_retries] using h

/-- Witness for C6: two failing attempts, success with non-empty content on
the third, `MAX_RETRIES = 4`: the result is the successful content after
exactly three attempts. -/
theorem c6_retry_schedule_witness :
    extract_twb_content_with_retries
      (fun n => if n = 2 then Except.ok ("c".data : Str) else Except.ok [])
      4 2 2 false = ("c".data, 3) :=
  (c6_retry_schedule _ 4 2 2 false).2.1 2 "c".data (by omega) (by decide)
    (by rfl) (by decide)

/-- C8: extraction never lets an error escape: an exception anywhere in the
body of `_extract_twb_content` yields the empty (absent) result, and
exhausting every retry yields the empty result rather than raising. -/
theorem c8_errors_become_absent :
    (∀ (env : ExtractEnv) (e : PyErr), extractTwbBody env = Except.error e →
      _extract_twb_content env = []) ∧
    (∀ (f : Nat → Except PyErr Str) (maxRetries : Nat)
        (initialDelay backoff : ℚ) (shouldDelay : Bool),
      (∀ i, i ≤ maxRetries → attemptFailsB (f i) = true) →
      extract_twb_content_with_retries f maxRetries initialDelay backoff
        shouldDelay = ([], maxRetries + 1)) := by
  constructor
  · intro env e h
    unfold _extract_twb_content
    rw [h]
  · intro f mR d b sd hfail
    have h := retriesGo_allfail f mR b (mR + 1) 0
      (if sd then d else (0 : ℚ)) (by omega) (fun i _ hi2 => hfail i hi2)
    simpa [extract_twb_content_with_retries] using h

/-- Witness for C8: a `.twb` whose read raises yields `""`, and an oracle
that always raises exhausts all five attempts and yields `""`. -/
theorem c8_errors_become_absent_witness :
    _extract_twb_content
      ⟨"a.twb".data, Except.error ⟨"io".data⟩, false, Except.error ⟨"io".data⟩⟩ = [] ∧
    extract_twb_content_with_retries (fun _ => Except.error ⟨"io".data⟩)
      4 2 2 false = ([], 5) :=
  ⟨c8_errors_become_absent.1 _ ⟨"io".data⟩ rfl,
    c8_errors_become_absent.2 _ 4 2 2 false (fun _ _ => rfl)⟩

theorem runLenFrom_le (a b : Lines) (ahi bhi : Nat) :
    ∀ (n i j : Nat), ahi - i ≤ n →
      runLenFrom a b ahi bhi i j ≤ ahi - i ∧
        runLenFrom a b ahi bhi i j ≤ bhi - j := by
  intro n
  induction n with
  | zero =>
    intro i j hle
    rw [runLenFrom.eq_def, dif_neg (by intro hcon; omega)]
    omega
  | succ n ih =>
    intro i j hle
    by_cases hcond : i < ahi ∧ j < bhi ∧ (a.get? i).isSome ∧ a.get? i = b.get? j
    · rw [runLenFrom.eq_def, dif_pos hcond]
      obtain ⟨h1, h2, -, -⟩ := hcond
      have := ih (i + 1) (j + 1) (by omega)
      omega
    · rw [runLenFrom.eq_def, dif_neg hcond]
      omega

theorem runLenFrom_self_diag (a : Lines) :
    ∀ (n i : Nat), a.length - i ≤ n →
      runLenFrom a a a.length a.length i i = a.length - i := by
  intro n
  induction n with
  | zero =>
    intro i hle
    rw [runLenFrom.eq_def, dif_neg (by intro hcon; omega)]
    omega
  | succ n ih =>
    intro i hle
    by_cases hi : i < a.length
    · rw [runLenFrom.eq_def, dif_pos
        ⟨hi, hi, by rw [List.get?_eq_get hi]; rfl, rfl⟩]
      rw [ih (i + 1) (by omega)]
      omega
    · rw [runLenFrom.eq_def, dif_neg (by intro hcon; exact hi hcon.1)]
      omega

theorem flm_inner_keep (a b : Lines) (ahi bhi : Nat) (i : Nat) :
    ∀ (js : List Nat) (best : Nat × Nat × Nat),
      (∀ j ∈ js, runLenFrom a b ahi bhi i j ≤ best.2.2) →
      js.foldl
        (fun best j =>
          if best.2.2 < runLenFrom a b ahi bhi i j then
            (i, j, runLenFrom a b ahi bhi i j)
          else best)
        best = best := by
  intro js
  induction js with
  | nil => intro best hkeep; rfl
  | cons j js ih =>
    intro best hkeep
    rw [List.foldl_cons]
    rw [if_neg (by
      have := hkeep j (List.mem_cons_self _ _)
      omega)]
    exact ih best (fun x hx => hkeep x (List.mem_cons_of_mem _ hx))

theorem flm_outer_keep (a b : Lines) (ahi bhi : Nat) (js : List Nat) :
    ∀ (is' : List Nat) (best : Nat × Nat × Nat),
      (∀ i ∈ is', ∀ j ∈ js, runLenFrom a b ahi bhi i j ≤ best.2.2) →
      is'.foldl
        (fun best i =>
          js.foldl
            (fun best j =>
              if best.2.2 < runLenFrom a b ahi bhi i j then
                (i, j, runLenFrom a b ahi bhi i j)
              else best)
            best)
        best = best := by
  intro is'
  induction is' with
  | nil => intro best hkeep; rfl
  | cons i is' ih =>
    intro best hkeep
    rw [List.foldl_cons, flm_inner_keep a b ahi bhi i js best
      (fun j hj => hkeep i (List.mem_cons_self _ _) j hj)]
    exact ih best (fun x hx j hj => hkeep x (List.mem_cons_of_mem _ hx) j hj)

theorem find_longest_match_self (a : Lines) (h : a ≠ []) :
    find_longest_match a a 0 a.length 0 a.length = (0, 0, a.length) := by
  obtain ⟨L, hL⟩ : ∃ L, a.length = L + 1 := by
    cases a with
    | nil => exact absurd rfl h
    | cons x xs => exact ⟨xs.length, rfl⟩
  have hdiag : runLenFrom a a a.length a.length 0 0 = a.length := by
    have hd := runLenFrom_self_diag a a.length 0 (by omega)
    simpa using hd
  have hrange : List.range' 0 a.length = 0 :: List.range' 1 L := by
    rw [hL, List.range'_succ]
  unfold find_longest_match
  rw [Nat.sub_zero, hrange, List.foldl_cons, List.foldl_cons]
  dsimp only
  rw [hdiag, if_pos (by omega)]
  rw [flm_inner_keep a a a.length a.length 0 (List.range' 1 L)
    (0, 0, a.length) (fun j hj => by
      have hb := (runLenFrom_le a a a.length a.length a.length 0 j (by omega)).1
      simpa using hb)]
  rw [flm_outer_keep a a a.length a.length (0 :: List.range' 1 L)
    (List.range' 1 L) (0, 0, a.length) (fun i hi j hj => by
      have ha := (runLenFrom_le a a a.length a.length a.length i j (by omega)).1
      have : runLenFrom a a a.length a.length i j ≤ a.length := by omega
      simpa using this)]

theorem find_longest_match_empty_left (a b : Lines) (alo blo bhi : Nat) :
    find_longest_match a b alo alo blo bhi = (alo, blo, 0) := by
  unfold find_longest_match
  rw [Nat.sub_self]
  rfl

theorem get_matching_blocks_self (a : Lines) :
    get_matching_blocks a a =
      if a.length = 0 then [(0, 0, 0)]
      else [(0, 0, a.length), (a.length, a.length, 0)] := by
  by_cases h : a.length = 0
  · rw [if_pos h]
    have ha : a = [] := List.length_eq_zero.1 h
    subst ha
    rfl
  · rw [if_neg h]
    have hne : a ≠ [] := by
      intro hcon
      subst hcon
      exact h rfl
    unfold get_matching_blocks
    obtain ⟨F, hF⟩ : ∃ F, a.length + a.length + 1 = F + 1 :=
      ⟨a.length + a.length, rfl⟩
    rw [hF]
    rw [show matching_blocks_go a a (F + 1) 0 a.length 0 a.length =
        (let m := find_longest_match a a 0 a.length 0 a.length
         if m.2.2 = 0 then []
         else
           matching_blocks_go a a F 0 m.1 0 m.2.1 ++ [m] ++
             matching_blocks_go a a F (m.1 + m.2.2) a.length
               (m.2.1 + m.2.2) a.length) from rfl]
    rw [find_longest_match_self a hne]
    dsimp only
    rw [if_neg h]
    simp only [Nat.zero_add]
    obtain ⟨G, hG⟩ : ∃ G, F = G + 1 := by
      refine ⟨F - 1, ?_⟩
      have : 1 ≤ a.length := by omega
      omega
    rw [hG]
    rw [show matching_blocks_go a a (G + 1) 0 0 0 0 =
        (let m := find_longest_match a a 0 0 0 0
         if m.2.2 = 0 then []
         else
           matching_blocks_go a a G 0 m.1 0 m.2.1 ++ [m] ++
             matching_blocks_go a a G (m.1 + m.2.2) 0 (m.2.1 + m.2.2) 0)
        from rfl]
    rw [show matching_blocks_go a a (G + 1) a.length a.length a.length
          a.length =
        (let m := find_longest_match a a a.length a.length a.length a.length
         if m.2.2 = 0 then []
         else
           matching_blocks_go a a G a.length m.1 a.length m.2.1 ++ [m] ++
             matching_blocks_go a a G (m.1 + m.2.2) a.length
               (m.2.1 + m.2.2) a.length)
        from rfl]
    rw [find_longest_match_empty_left, find_longest_match_empty_left]
    dsimp only
    rw [if_pos rfl, if_pos rfl]
    simp only [List.nil_append, List.append_nil]
    unfold coalesceBlocks
    rw [List.foldl_cons, List.foldl_nil]
    dsimp only
    rw [if_pos (show (0 : Nat) + 0 = 0 ∧ (0 : Nat) + 0 = 0 from ⟨rfl, rfl⟩)]
    dsimp only
    simp only [Nat.zero_add]
    rw [if_pos h]
    simp

theorem get_opcodes_self (a : Lines) :
    get_opcodes a a =
      if a.length = 0 then []
      else [(DTag.equal, 0, a.length, 0, a.length)] := by
  unfold get_opcodes
  rw [get_matching_blocks_self]
  by_cases h : a.length = 0
  · rw [if_pos h, if_pos h]
    rfl
  · rw [if_neg h, if_neg h]
    rw [List.foldl_cons, List.foldl_cons, List.foldl_nil]
    dsimp only
    rw [if_neg (by omega), if_neg (by omega), if_neg (by omega), if_pos h]
    simp only [Nat.zero_add]
    rw [if_neg (by omega), if_neg (by omega), if_neg (by omega),
      if_neg (by omega)]
    rfl

theorem grouped_fold_single (n : Nat) (c : Opcode)
    (hspan : c.2.2.1 - c.2.1 ≤ n + n) :
    List.foldl
      (fun (st : List Opcode × List (List Opcode)) c =>
        if c.1 = DTag.equal ∧ n + n < c.2.2.1 - c.2.1 then
          (([(c.1, max c.2.1 (c.2.2.1 - n), c.2.2.1,
              max c.2.2.2.1 (c.2.2.2.2 - n), c.2.2.2.2)] : List Opcode),
            st.2 ++ [st.1 ++ [(c.1, c.2.1, min c.2.2.1 (c.2.1 + n),
              c.2.2.2.1, min c.2.2.2.2 (c.2.2.2.1 + n))]])
        else (st.1 ++ [c], st.2))
      ([], []) [c] = ([c], []) := by
  rw [List.foldl_cons, List.foldl_nil]
  rw [if_neg (fun hcon => absurd hcon.2 (by omega))]
  rfl

theorem get_grouped_opcodes_self (a : Lines) :
    get_grouped_opcodes a a 3 = [] := by
  unfold get_grouped_opcodes
  rw [get_opcodes_self]
  by_cases h : a.length = 0
  · rw [if_pos h]
    rfl
  · rw [if_neg h]
    dsimp only
    rw [show (([(DTag.equal, 0, a.length, 0, a.length)] :
        List Opcode).isEmpty) = false from rfl]
    rw [if_neg Bool.false_ne_true]
    rw [show modHead 3 [((DTag.equal : DTag), 0, a.length, 0, a.length)] =
        [((DTag.equal : DTag), max 0 (a.length - 3), a.length,
          max 0 (a.length - 3), a.length)] from rfl]
    rw [show modLast 3 [((DTag.equal : DTag), max 0 (a.length - 3), a.length,
          max 0 (a.length - 3), a.length)] =
        [((DTag.equal : DTag), max 0 (a.length - 3),
          min a.length (max 0 (a.length - 3) + 3), max 0 (a.length - 3),
          min a.length (max 0 (a.length - 3) + 3))] from rfl]
    rw [grouped_fold_single 3 _ (by
      show min a.length (max 0 (a.length - 3) + 3) - max 0 (a.length - 3) ≤
        3 + 3
      omega)]
    rw [if_neg (fun hcon => hcon.2 ⟨rfl, rfl⟩)]

theorem unified_diff_self (a : Lines) (fromfile tofile : Str) :
    unified_diff a a fromfile tofile = [] := by
  unfold unified_diff
  rw [get_grouped_opcodes_self]

theorem generate_minimal_diff_of_norm_eq (x y : Str)
    (h : normalize_xml_for_diff x = normalize_xml_for_diff y) :
    generate_minimal_diff x y = [] := by
  unfold generate_minimal_diff
  rw [h, unified_diff_self]
  rfl

/-- C5: the diff of two inputs with equal normalizations — in particular of
any input with itself — is empty: `generate_minimal_diff` returns no lines
at all (no headers, no hunks). -/
theorem c5_diff_reflexive_empty (x y : Str)
    (h : normalize_xml_for_diff x = normalize_xml_for_diff y) :
    generate_minimal_diff x y = [] :=
  generate_minimal_diff_of_norm_eq x y h

/-- Witness for C5 at a concrete input: `diff("<a/>", "<a/>")` is empty. -/
theorem c5_diff_reflexive_empty_witness :
    normalize_xml_for_diff "<a/>".data = normalize_xml_for_diff "<a/>".data ∧
      generate_minimal_diff "<a/>".data "<a/>".data = [] :=
  ⟨rfl, c5_diff_reflexive_empty "<a/>".data "<a/>".data rfl⟩

theorem endswith_twbx_not_twb (s : Str)
    (h : pyEndswith s ".twbx".data = true) : pyEndswith s ".twb".data = false := by
  by_contra hcon
  rw [Bool.not_eq_false] at hcon
  obtain ⟨u1, hu1⟩ := List.isSuffixOf_iff_suffix.1 h
  obtain ⟨u2, hu2⟩ := List.isSuffixOf_iff_suffix.1 hcon
  have h1 : s.getLast? = some 'x' := by
    rw [← hu1, List.getLast?_append]
    rfl
  have h2 : s.getLast? = some 'b' := by
    rw [← hu2, List.getLast?_append]
    rfl
  rw [h1] at h2
  exact absurd h2 (by decide)

theorem selectLargest_go (sz : Str → Nat) :
    ∀ (t : List Str) (b : Str),
      ∃ best pre post,
        b :: t = pre ++ best :: post ∧
        (∀ c ∈ pre, sz c < sz best) ∧
        (∀ c ∈ b :: t, sz c ≤ sz best) ∧
        List.foldl
          (fun acc f => if (sz f : Int) > acc.2 then (some f, (sz f : Int)) else acc)
          (some b, (sz b : Int)) t = (some best, (sz best : Int)) := by
  intro t
  induction t with
  | nil =>
    intro b
    exact ⟨b, [], [], rfl, by simp, by simp, rfl⟩
  | cons x t ih =>
    intro b
    rw [List.foldl_cons]
    dsimp only
    by_cases hx : (sz x : Int) > (sz b : Int)
    · rw [if_pos hx]
      obtain ⟨best, pre, post, hdec, hpre, hle, hfold⟩ := ih x
      have hbx : sz b < sz x := by exact_mod_cast hx
      refine ⟨best, b :: pre, post, ?_, ?_, ?_, hfold⟩
      · rw [List.cons_append, ← hdec]
      · intro c hc
        rcases List.mem_cons.1 hc with rfl | hcpre
        · have hxbest : sz x ≤ sz best := hle x (List.mem_cons_self _ _)
          omega
        · exact hpre c hcpre
      · intro c hc
        rcases List.mem_cons.1 hc with rfl | hc2
        · have hxbest : sz x ≤ sz best := hle x (List.mem_cons_self _ _)
          omega
        · exact hle c hc2
    · rw [if_neg hx]
      have hxb : sz x ≤ sz b := by
        have : (sz x : Int) ≤ (sz b : Int) := by omega
        exact_mod_cast this
      obtain ⟨best, pre, post, hdec, hpre, hle, hfold⟩ := ih b
      rcases pre with _ | ⟨p, pre'⟩
      · rw [List.nil_append, List.cons.injEq] at hdec
        obtain ⟨h1, h2⟩ := hdec
        subst h1
        subst h2
        refine ⟨b, [], x :: t, rfl, by simp, ?_, hfold⟩
        intro c hc
        rcases List.mem_cons.1 hc with rfl | hc2
        · exact le_rfl
        rcases List.mem_cons.1 hc2 with rfl | hc3
        · exact hxb
        · exact hle c (List.mem_cons_of_mem _ hc3)
      · rw [List.cons_append, List.cons.injEq] at hdec
        obtain ⟨h1, h2⟩ := hdec
        subst h1
        refine ⟨best, b :: x :: pre', post, ?_, ?_, ?_, hfold⟩
        · rw [List.cons_append, List.cons_append, ← h2]
        · intro c hc
          have hpb : sz b < sz best := hpre b (List.mem_cons_self _ _)
          rcases List.mem_cons.1 hc with rfl | hc2
          · exact hpb
          rcases List.mem_cons.1 hc2 with rfl | hc3
          · omega
          · exact hpre c (List.mem_cons_of_mem _ hc3)
        · intro c hc
          have hbb : sz b ≤ sz best := hle b (List.mem_cons_self _ _)
          rcases List.mem_cons.1 hc with rfl | hc2
          · exact hbb
          rcases List.mem_cons.1 hc2 with rfl | hc3
          · omega
          · exact hle c (List.mem_cons_of_mem _ hc3)

theorem selectLargest_spec (sz : Str → Nat) (cands : List Str) (hne : cands ≠ []) :
    ∃ best pre post,
      cands = pre ++ best :: post ∧
      (∀ c ∈ pre, sz c < sz best) ∧
      (∀ c ∈ cands, sz c ≤ sz best) ∧
      (selectLargest sz cands).1 = some best := by
  rcases cands with _ | ⟨b, t⟩
  · exact absurd rfl hne
  obtain ⟨best, pre, post, hdec, hpre, hle, hfold⟩ := selectLargest_go sz t b
  refine ⟨best, pre, post, hdec, hpre, hle, ?_⟩
  unfold selectLargest
  rw [List.foldl_cons]
  dsimp only
  rw [if_pos (by
    have : (0 : Int) ≤ (sz b : Int) := Int.natCast_nonneg _
    omega)]
  rw [hfold]

/-- C7: on a valid container, `_extract_twb_content` prefers `.twb`-named
entries, falls back to `.xml` entries, and returns the absent result if
there are none; among the candidates it selects the first entry of maximal
uncompressed size and returns its content. -/
theorem c7_extract_selects_largest (name : Str) (ft : Except PyErr Str)
    (z : ZipView) (hn : pyEndswith (pyLower name) ".twbx".data = true) :
    (twb_files_of z.namelist = [] →
      twbCandidates z.namelist = xml_candidates_of z.namelist) ∧
    (twb_files_of z.namelist ≠ [] →
      twbCandidates z.namelist = twb_files_of z.namelist) ∧
    (twbCandidates z.namelist = [] →
      _extract_twb_content ⟨name, ft, true, Except.ok z⟩ = []) ∧
    (twbCandidates z.namelist ≠ [] →
      ∃ best pre post,
        twbCandidates z.namelist = pre ++ best :: post ∧
        (∀ c ∈ pre, z.getinfoSize c < z.getinfoSize best) ∧
        (∀ c ∈ twbCandidates z.namelist, z.getinfoSize c ≤ z.getinfoSize best) ∧
        ∀ s, z.readEntry best = Except.ok s →
          _extract_twb_content ⟨name, ft, true, Except.ok z⟩ = s) := by
  have hnb : pyEndswith (pyLower name) ".twb".data = false :=
    endswith_twbx_not_twb _ hn
  have hbody : extractTwbBody ⟨name, ft, true, Except.ok z⟩ =
      (if (twbCandidates z.namelist).isEmpty then Except.ok []
       else
        match (selectLargest z.getinfoSize (twbCandidates z.namelist)).1 with
        | some best => z.readEntry best
        | none => Except.ok []) := by
    unfold extractTwbBody
    dsimp only
    rw [hnb, hn]
    rfl
  refine ⟨?_, ?_, ?_, ?_⟩
  · intro h0
    unfold twbCandidates
    rw [h0]
    rfl
  · intro h0
    unfold twbCandidates
    rw [isEmpty_false_of_ne_nil h0]
    rfl
  · intro hc
    unfold _extract_twb_content
    rw [hbody, if_pos (by rw [hc]; rfl)]
  · intro hcne
    obtain ⟨best, pre, post, hdec, hpre, hle, hsel⟩ :=
      selectLargest_spec z.getinfoSize _ hcne
    refine ⟨best, pre, post, hdec, hpre, hle, fun s hs => ?_⟩
    unfold _extract_twb_content
    rw [hbody, if_neg (by rw [isEmpty_false_of_ne_nil hcne]; exact Bool.false_ne_true),
      hsel]
    simp only [hs]

/-- Witness for C7 (Scenario C): a container with `a.twb` of size 10 and
`b.twb` of size 20 under the matching extension. -/
theorem c7_extract_selects_largest_witness :
    (pyEndswith (pyLower "w.twbx".data) ".twbx".data = true) ∧
    (twbCandidates wzView.namelist ≠ [] →
      ∃ best pre post,
        twbCandidates wzView.namelist = pre ++ best :: post ∧
        (∀ c ∈ pre, wzView.getinfoSize c < wzView.getinfoSize best) ∧
        (∀ c ∈ twbCandidates wzView.namelist,
          wzView.getinfoSize c ≤ wzView.getinfoSize best) ∧
        ∀ s, wzView.readEntry best = Except.ok s →
          _extract_twb_content
            ⟨"w.twbx".data, Except.ok [], true, Except.ok wzView⟩ = s) :=
  ⟨by decide,
    (c7_extract_selects_largest "w.twbx".data (Except.ok []) wzView (by decide)).2.2.2⟩

/-! #### C10 lemmas: line shape of generate_minimal_diff -/

theorem natDigits_mem (n : Nat) :
    ∀ c ∈ natDigits n, ∃ d, d < 10 ∧ c = Char.ofNat (48 + d) := by
  induction n using natDigits.induct with
  | case1 n hlt =>
    rw [natDigits, if_pos hlt]
    intro c hc
    rcases List.mem_singleton.1 hc with rfl
    exact ⟨n, hlt, rfl⟩
  | case2 n hlt ih =>
    rw [natDigits, if_neg hlt]
    intro c hc
    rcases List.mem_append.1 hc with h1 | h2
    · exact ih c h1
    · rcases List.mem_singleton.1 h2 with rfl
      exact ⟨n % 10, Nat.mod_lt _ (by omega), rfl⟩

theorem natDigits_no_break (n : Nat) :
    ∀ c ∈ natDigits n, isLineBreak c = false := by
  intro c hc
  obtain ⟨d, hd, rfl⟩ := natDigits_mem n c hc
  clear hc
  revert d
  decide

theorem fmt_range_no_break (s t : Nat) :
    ∀ c ∈ _format_range_unified s t, isLineBreak c = false := by
  intro c hc
  unfold _format_range_unified at hc
  by_cases h1 : t - s = 1
  · rw [if_pos h1] at hc
    exact natDigits_no_break _ c hc
  · rw [if_neg h1] at hc
    rcases List.mem_append.1 hc with h2 | h3
    · rcases List.mem_append.1 h2 with h4 | h5
      · exact natDigits_no_break _ c h4
      · rcases List.mem_singleton.1 h5 with rfl
        decide
    · exact natDigits_no_break _ c h3

theorem hunk_header_no_break (a b : Lines) (g : List Opcode) :
    ∀ c ∈ (hunkOf a b g).headD [], isLineBreak c = false := by
  unfold hunkOf
  intro c hc
  rw [List.headD_cons] at hc
  rcases List.mem_append.1 hc with h1 | h2
  · rcases List.mem_append.1 h1 with h3 | h4
    · rcases List.mem_append.1 h3 with h5 | h6
      · rcases List.mem_append.1 h5 with h7 | h8
        · exact (by decide : ∀ x ∈ "@@ -".data, isLineBreak x = false) c h7
        · exact fmt_range_no_break _ _ c h8
      · exact (by decide : ∀ x ∈ " +".data, isLineBreak x = false) c h6
    · exact fmt_range_no_break _ _ c h4
  · exact (by decide : ∀ x ∈ " @@".data, isLineBreak x = false) c h2

theorem opLines_shape (a b : Lines) (c : Opcode) :
    ∀ l ∈ opLines a b c,
      ∃ ch orig, l = ch :: orig ∧ (ch = ' ' ∨ ch = '-' ∨ ch = '+') ∧
        (orig ∈ a ∨ orig ∈ b) := by
  intro l hl
  unfold opLines at hl
  have hmema : ∀ x ∈ (a.drop c.2.1).take (c.2.2.1 - c.2.1), x ∈ a :=
    fun x hx => List.drop_subset _ _ (List.take_subset _ _ hx)
  have hmemb : ∀ x ∈ (b.drop c.2.2.2.1).take (c.2.2.2.2 - c.2.2.2.1), x ∈ b :=
    fun x hx => List.drop_subset _ _ (List.take_subset _ _ hx)
  rcases htag : c.1 with _ | _ | _ | _ <;> rw [htag] at hl
  · rcases List.mem_append.1 hl with h1 | h2
    · obtain ⟨orig, ho, rfl⟩ := List.mem_map.1 h1
      exact ⟨'-', orig, rfl, by simp, Or.inl (hmema orig ho)⟩
    · obtain ⟨orig, ho, rfl⟩ := List.mem_map.1 h2
      exact ⟨'+', orig, rfl, by simp, Or.inr (hmemb orig ho)⟩
  · obtain ⟨orig, ho, rfl⟩ := List.mem_map.1 hl
    exact ⟨'-', orig, rfl, by simp, Or.inl (hmema orig ho)⟩
  · obtain ⟨orig, ho, rfl⟩ := List.mem_map.1 hl
    exact ⟨'+', orig, rfl, by simp, Or.inr (hmemb orig ho)⟩
  · obtain ⟨orig, ho, rfl⟩ := List.mem_map.1 hl
    exact ⟨' ', orig, rfl, by simp, Or.inl (hmema orig ho)⟩

theorem hunkOf_mem (a b : Lines) (g : List Opcode) {l : Str}
    (hl : l ∈ hunkOf a b g) :
    l = (hunkOf a b g).headD [] ∨ ∃ c ∈ g, l ∈ opLines a b c := by
  unfold hunkOf at hl ⊢
  rw [List.headD_cons]
  rcases List.mem_cons.1 hl with rfl | h2
  · exact Or.inl rfl
  · right
    obtain ⟨ls, hls, hmem⟩ := List.mem_flatten.1 h2
    obtain ⟨c, hc, rfl⟩ := List.mem_map.1 hls
    exact ⟨c, hc, hmem⟩

theorem unified_diff_mem (a b : Lines) (ff tf : Str) {l : Str}
    (hl : l ∈ unified_diff a b ff tf) :
    l = "--- ".data ++ ff ∨ l = "+++ ".data ++ tf ∨
      ∃ g ∈ get_grouped_opcodes a b 3, l ∈ hunkOf a b g := by
  unfold unified_diff at hl
  rcases hgr : get_grouped_opcodes a b 3 with _ | ⟨g, gs⟩
  · rw [hgr] at hl
    simp at hl
  · rw [hgr] at hl
    rcases List.mem_cons.1 hl with rfl | h2
    · exact Or.inl rfl
    rcases List.mem_cons.1 h2 with rfl | h3
    · exact Or.inr (Or.inl rfl)
    · right; right
      obtain ⟨ls, hls, hmem⟩ := List.mem_flatten.1 h3
      obtain ⟨g', hg', rfl⟩ := List.mem_map.1 hls
      exact ⟨g', hg', hmem⟩

theorem unified_diff_no_break (a b : Lines) (ff tf : Str)
    (hfa : ∀ l ∈ a, ∀ c ∈ l, isLineBreak c = false)
    (hfb : ∀ l ∈ b, ∀ c ∈ l, isLineBreak c = false)
    (hff : ∀ c ∈ ff, isLineBreak c = false)
    (htf : ∀ c ∈ tf, isLineBreak c = false) :
    ∀ l ∈ unified_diff a b ff tf, ∀ c ∈ l, isLineBreak c = false := by
  intro l hl c hc
  rcases unified_diff_mem a b ff tf hl with rfl | rfl | ⟨g, hg, hmem⟩
  · rcases List.mem_append.1 hc with h1 | h2
    · exact (by decide : ∀ x ∈ "--- ".data, isLineBreak x = false) c h1
    · exact hff c h2
  · rcases List.mem_append.1 hc with h1 | h2
    · exact (by decide : ∀ x ∈ "+++ ".data, isLineBreak x = false) c h1
    · exact htf c h2
  · rcases hunkOf_mem a b g hmem with rfl | ⟨op, hop, hlop⟩
    · exact hunk_header_no_break a b g c hc
    · obtain ⟨ch, orig, rfl, hch, horig⟩ := opLines_shape a b op l hlop
      rcases List.mem_cons.1 hc with rfl | hc2
      · rcases hch with rfl | rfl | rfl <;> decide
      · rcases horig with h | h
        · exact hfa orig h c hc2
        · exact hfb orig h c hc2

/-- C10: every line returned by generate_minimal_diff starts with '+', '-' or
"@@" (so plain context lines, which start with a space, are never included) and
contains no line terminator; and every non-empty result begins with the two
placeholder file-header lines "--- old.twb" and "+++ new.twb". -/
theorem c10_diff_line_shape (old_content new_content : Str) :
    (∀ l ∈ generate_minimal_diff old_content new_content,
      ("+".data.isPrefixOf l || "-".data.isPrefixOf l ||
        "@@".data.isPrefixOf l) = true ∧
      ∀ c ∈ l, isLineBreak c = false) ∧
    (generate_minimal_diff old_content new_content ≠ [] →
      ∃ rest, generate_minimal_diff old_content new_content =
        "--- old.twb".data :: "+++ new.twb".data :: rest) := by
  constructor
  · intro l hl
    unfold generate_minimal_diff at hl
    constructor
    · have h1 := (List.mem_filter.mp hl).2
      exact h1
    · have hmem := (List.mem_filter.mp hl).1
      exact unified_diff_no_break _ _ _ _
        (fun x hx => pySplitlines_no_break hx)
        (fun x hx => pySplitlines_no_break hx)
        (by decide) (by decide) l hmem
  · intro hne
    unfold generate_minimal_diff at hne ⊢
    rcases hgr : get_grouped_opcodes
        (pySplitlines (normalize_xml_for_diff old_content))
        (pySplitlines (normalize_xml_for_diff new_content)) 3 with _ | ⟨g, gs⟩
    · exact absurd (by unfold unified_diff; rw [hgr]; rfl) hne
    · have hu : unified_diff
          (pySplitlines (normalize_xml_for_diff old_content))
          (pySplitlines (normalize_xml_for_diff new_content))
          "old.twb".data "new.twb".data =
          ("--- ".data ++ "old.twb".data) :: ("+++ ".data ++ "new.twb".data) ::
            (((g :: gs).map (hunkOf
              (pySplitlines (normalize_xml_for_diff old_content))
              (pySplitlines (normalize_xml_for_diff new_content)))).flatten) := by
        unfold unified_diff
        rw [hgr]
      rw [hu]
      refine ⟨List.filter (fun line => "+".data.isPrefixOf line ||
          "-".data.isPrefixOf line || "@@".data.isPrefixOf line)
          ((List.map (hunkOf
            (pySplitlines (normalize_xml_for_diff old_content))
            (pySplitlines (normalize_xml_for_diff new_content))) (g :: gs)).flatten), ?_⟩
      rfl


/-- C9: for a modified file whose diff result is empty — in particular when the
two documents normalize to equal text — the rendered file section is header,
preview and the fixed "no meaningful changes" marker, with no fenced block. -/
theorem c9_modified_empty_diff (gist : Option Str) (fp : Str) (pv : Option Str)
    (ct : Option Str) (pr x y : Str)
    (h : normalize_xml_for_diff x = normalize_xml_for_diff y) :
    build_file_section gist ⟨fp, "modified".data, pv, ct,
        some (generate_minimal_diff x y)⟩ pr =
      "### ".data ++ ("**".data ++ html_escape fp ++ "** — ".data ++
        "modified".data ++ "\n".data) ++ "\n".data ++
      ("**Preview:**\n\n".data ++ pyOr pv "(no preview available)".data ++
        "\n\n".data) ++ "\n".data ++
      "✅ No meaningful changes detected.\n\n".data ++ "\n".data ++
      "\n---\n".data := by
  have hd : generate_minimal_diff x y = [] :=
    generate_minimal_diff_of_norm_eq x y h
  rw [hd]
  simp only [build_file_section, pyOrL, pyJoin, List.append_assoc]

/-- Witness for C9 at a concrete modified summary with two identical inputs. -/
theorem c9_modified_empty_diff_witness :
    build_file_section none ⟨"f.twb".data, "modified".data, none, none,
        some (generate_minimal_diff "<x/>".data "<x/>".data)⟩ [] =
      "### ".data ++ ("**".data ++ html_escape "f.twb".data ++ "** — ".data ++
        "modified".data ++ "\n".data) ++ "\n".data ++
      ("**Preview:**\n\n".data ++ pyOr none "(no preview available)".data ++
        "\n\n".data) ++ "\n".data ++
      "✅ No meaningful changes detected.\n\n".data ++ "\n".data ++
      "\n---\n".data :=
  c9_modified_empty_diff none "f.twb".data none none [] "<x/>".data
    "<x/>".data rfl

end TDB
